import Mathlib

/-!
Shallow embedding of `source/common/common/key_value_store_base.cc`
(Envoy `KeyValueStoreBase`): the length-prefixed token reader `getToken`,
the best-effort contents parser `parseContents`, the mutation operations
`addOrUpdate` / `remove` / `get`, the iteration contract `iterate`, and
the flush-timer coordination of the constructor and timer callback.

Byte strings are modelled as `List Char`; the `absl::flat_hash_map` store
is modelled as an association list where `emplace` keeps the first binding
of a key and `insert_or_assign` overwrites it, and a lookup function
exposes the map view.
-/

/-- Byte strings (C++ `absl::string_view` / `std::string` contents). -/
abbrev Bytes := List Char

/-- ASCII whitespace, as `absl::ascii_isspace`. -/
def asciiIsSpace (c : Char) : Bool :=
  c = ' ' || c = '\t' || c = '\n' || c = '\x0b' || c = '\x0c' || c = '\r'

/-- ASCII decimal digit test. -/
def isDecDigit (c : Char) : Bool :=
  '0' ≤ c && c ≤ '9'

/-- Numeric value of a big-endian decimal digit string. -/
def digitsToNat (l : Bytes) : Nat :=
  l.foldl (fun a c => 10 * a + (c.toNat - 48)) 0

/-- Strip leading and trailing ASCII whitespace. -/
def trimAscii (l : Bytes) : Bytes :=
  ((l.dropWhile asciiIsSpace).reverse.dropWhile asciiIsSpace).reverse

/-- Embedding of `absl::SimpleAtoi<uint64_t>`: optional surrounding ASCII
whitespace, an optional leading plus sign (a minus sign is rejected for an
unsigned target), then base-10 digits; the value must fit in 64 bits,
otherwise the parse fails. -/
def simpleAtoiU64 (s : Bytes) : Option Nat :=
  match trimAscii s with
  | [] => none
  | c :: rest =>
    let digits := if c = '+' then rest else c :: rest
    if !digits.isEmpty && digits.all isDecDigit && digitsToNat digits < 2 ^ 64 then
      some (digitsToNat digits)
    else none

/-- Index of the first newline in the view, as `string_view::find("\n")`. -/
def findNewline : Bytes → Option Nat
  | [] => none
  | c :: rest => if c = '\n' then some 0 else (findNewline rest).map (· + 1)

/-- Structural parse errors produced by `getToken`. -/
inductive ParseErr
  | noNewline
  | noLength
  | insufficientContents
deriving DecidableEq, Repr

/-- The error message the code writes into the caller-supplied string. -/
def ParseErr.message : ParseErr → String
  | .noNewline => "Bad file: no newline"
  | .noLength => "Bad file: no length"
  | .insufficientContents => "Bad file: insufficient contents"

/-- Embedding of `getToken`: removes a length-prefixed token from the
contents view and returns it.  The result is the returned optional token,
the contents view after the call, and the error set on failure. -/
def getToken (contents : Bytes) : Option Bytes × Bytes × Option ParseErr :=
  match findNewline contents with
  | none => (none, contents, some ParseErr.noNewline)
  | some it =>
    match simpleAtoiU64 (contents.take it) with
    | none => (none, contents, some ParseErr.noLength)
    | some length =>
      if (contents.drop (it + 1)).length < length then
        (none, contents.drop (it + 1), some ParseErr.insufficientContents)
      else
        (some ((contents.drop (it + 1)).take length),
          (contents.drop (it + 1)).drop length, none)

/-- The in-memory store: an association list of key/value pairs. -/
abbrev Store := List (Bytes × Bytes)

/-- Embedding of `absl::flat_hash_map::emplace`: inserts only when the key
is absent, keeping the existing binding otherwise. -/
def Store.emplace (store : Store) (k v : Bytes) : Store :=
  if store.any (fun p => p.1 = k) then store else store ++ [(k, v)]

/-- Embedding of `absl::flat_hash_map::insert_or_assign`: overwrites the
binding when the key is present. -/
def Store.insertOrAssign (store : Store) (k v : Bytes) : Store :=
  if store.any (fun p => p.1 = k) then
    store.map (fun p => if p.1 = k then (k, v) else p)
  else
    store ++ [(k, v)]

/-- Embedding of `absl::flat_hash_map::erase`. -/
def Store.eraseKey (store : Store) (k : Bytes) : Store :=
  store.filter (fun p => p.1 ≠ k)

/-- Map lookup on the association-list store. -/
def Store.getVal (store : Store) (k : Bytes) : Option Bytes :=
  (store.find? (fun p => p.1 = k)).map (fun p => p.2)

/-- Fuel-indexed unfolding of the `parseContents` while-loop; the fuel only
bounds the number of iterations and is irrelevant once it exceeds the
length of the contents, since every successful `getToken` consumes at
least the newline byte. -/
def parseLoop : Nat → Bytes → Store → Bool × Store × Option ParseErr
  | 0, _, store => (false, store, none)
  | fuel + 1, contents, store =>
    if contents.isEmpty then (true, store, none)
    else
      match getToken contents with
      | (none, _, e) => (false, store, e)
      | (some key, r1, _) =>
        match getToken r1 with
        | (none, _, e) => (false, store, e)
        | (some value, r2, _) => parseLoop fuel r2 (store.emplace key value)

/-- Embedding of `KeyValueStoreBase::parseContents`: best-effort parse of
the contents into the store.  Returns the success flag, the resulting
store, and the error logged on failure. -/
def KeyValueStoreBase.parseContents (contents : Bytes) (store : Store) :
    Bool × Store × Option ParseErr :=
  parseLoop (contents.length + 1) contents store

/-- State of a `KeyValueStoreBase` object together with its flush timer.
Modelled from the spec: the recurring-timer capability (`createTimer`,
`enableTimer`, `enabled`) consumed from the dispatcher is an external
collaborator not under `src/`; `armedInterval` records the interval the
timer is currently armed with (if any) and `flushCount` counts the
invocations of the externally supplied flush action. -/
structure KVState where
  store : Store
  armedInterval : Option Int
  flushCount : Nat
deriving DecidableEq, Repr

/-- The `flush_timer_->enabled()` query. -/
def KVState.timerEnabled (s : KVState) : Bool :=
  s.armedInterval.isSome

/-- Embedding of the `KeyValueStoreBase` constructor: the timer is armed
with the flush interval exactly when the interval (in milliseconds) is
positive. -/
def KeyValueStoreBase.construct (flushInterval : Int) : KVState :=
  { store := [],
    armedInterval := if flushInterval > 0 then some flushInterval else none,
    flushCount := 0 }

/-- Embedding of the timer callback created in the constructor: it can run
only while the timer is pending; it invokes `flush()` and then re-arms the
timer with the captured interval. -/
def KeyValueStoreBase.onTimerFire (flushInterval : Int) (s : KVState) : KVState :=
  { s with flushCount := s.flushCount + 1, armedInterval := some flushInterval }

/-- Embedding of `KeyValueStoreBase::addOrUpdate`: insert-or-assign, then a
synchronous flush when the periodic timer is not armed. -/
def KeyValueStoreBase.addOrUpdate (s : KVState) (k v : Bytes) : KVState :=
  let s1 : KVState := { s with store := s.store.insertOrAssign k v }
  if s1.timerEnabled then s1 else { s1 with flushCount := s1.flushCount + 1 }

/-- Embedding of `KeyValueStoreBase::remove`: erase, then a synchronous
flush when the periodic timer is not armed. -/
def KeyValueStoreBase.remove (s : KVState) (k : Bytes) : KVState :=
  let s1 : KVState := { s with store := s.store.eraseKey k }
  if s1.timerEnabled then s1 else { s1 with flushCount := s1.flushCount + 1 }

/-- Embedding of `KeyValueStoreBase::get`. -/
def KeyValueStoreBase.get (s : KVState) (k : Bytes) : Option Bytes :=
  s.store.getVal k

/-- The per-entry callback signal of the iteration contract. -/
inductive Iterate
  | Continue
  | Break
deriving DecidableEq, Repr

/-- Embedding of `KeyValueStoreBase::iterate`, instrumented to return the
sequence of entries passed to the callback: traversal stops right after
the callback returns `Break`. -/
def KeyValueStoreBase.iterate (store : Store) (cb : Bytes → Bytes → Iterate) : Store :=
  match store with
  | [] => []
  | e :: rest =>
    match cb e.1 e.2 with
    | Iterate.Break => [e]
    | Iterate.Continue => e :: KeyValueStoreBase.iterate rest cb

/-- Decimal representation of a natural number, as the flush serializer
writes length prefixes. -/
def natDecimal (n : Nat) : Bytes :=
  if n = 0 then ['0'] else ((Nat.digits 10 n).map fun d => Char.ofNat (48 + d)).reverse

/-- One length-prefixed token of the wire format. -/
def encodeToken (payload : Bytes) : Bytes :=
  natDecimal payload.length ++ '\n' :: payload

/-- Wire encoding of one key/value pair. -/
def encodePair (p : Bytes × Bytes) : Bytes :=
  encodeToken p.1 ++ encodeToken p.2

/-- Wire encoding of a list of key/value pairs, concatenated in order. -/
def encodePairs (ps : List (Bytes × Bytes)) : Bytes :=
  (ps.map encodePair).flatten

/-! Basic facts about decimal digit characters and the serializer. -/

lemma toNat_digitChar {d : Nat} (h : d < 10) : (Char.ofNat (48 + d)).toNat = 48 + d := by
  interval_cases d <;> decide

lemma isDecDigit_digitChar {d : Nat} (h : d < 10) : isDecDigit (Char.ofNat (48 + d)) = true := by
  interval_cases d <;> decide

lemma digitChar_ne_newline {d : Nat} (h : d < 10) : Char.ofNat (48 + d) ≠ '\n' := by
  interval_cases d <;> decide

lemma digit_not_space {c : Char} (h : isDecDigit c = true) : asciiIsSpace c = false := by
  have hne : c ≠ ' ' ∧ c ≠ '\t' ∧ c ≠ '\n' ∧ c ≠ '\x0b' ∧ c ≠ '\x0c' ∧ c ≠ '\r' := by
    refine ⟨?_, ?_, ?_, ?_, ?_, ?_⟩ <;> rintro rfl <;> exact absurd h (by decide)
  simp [asciiIsSpace, hne.1, hne.2.1, hne.2.2.1, hne.2.2.2.1, hne.2.2.2.2.1, hne.2.2.2.2.2]

lemma digit_ne_plus {c : Char} (h : isDecDigit c = true) : c ≠ '+' := by
  rintro rfl
  exact absurd h (by decide)

lemma natDecimal_all_digits (n : Nat) : ∀ c ∈ natDecimal n, isDecDigit c = true := by
  intro c hc
  unfold natDecimal at hc
  by_cases h0 : n = 0
  · simp [h0] at hc
    subst hc
    decide
  · simp only [h0, if_false, List.mem_reverse, List.mem_map] at hc
    obtain ⟨d, hd, rfl⟩ := hc
    exact isDecDigit_digitChar (Nat.digits_lt_base (by norm_num) hd)

lemma natDecimal_ne_nil (n : Nat) : natDecimal n ≠ [] := by
  unfold natDecimal
  by_cases h0 : n = 0
  · simp [h0]
  · simp only [h0, if_false, ne_eq, List.reverse_eq_nil_iff, List.map_eq_nil_iff]
    exact Nat.digits_ne_nil_iff_ne_zero.mpr h0

lemma newline_not_mem_natDecimal (n : Nat) : '\n' ∉ natDecimal n := by
  intro hmem
  have := natDecimal_all_digits n '\n' hmem
  exact absurd this (by decide)

lemma dropWhile_space_of_digits (l : Bytes) (h : ∀ c ∈ l, isDecDigit c = true) :
    l.dropWhile asciiIsSpace = l := by
  cases l with
  | nil => rfl
  | cons c t =>
    have : asciiIsSpace c = false := digit_not_space (h c (List.mem_cons_self c t))
    simp [List.dropWhile_cons, this]

lemma trimAscii_of_digits (l : Bytes) (h : ∀ c ∈ l, isDecDigit c = true) :
    trimAscii l = l := by
  unfold trimAscii
  rw [dropWhile_space_of_digits l h]
  rw [dropWhile_space_of_digits l.reverse (by intro c hc; exact h c (List.mem_reverse.mp hc))]
  exact List.reverse_reverse l

lemma foldl_map_digitChar (L : List Nat) (hL : ∀ d ∈ L, d < 10) :
    ∀ a : Nat,
      (L.map fun d => Char.ofNat (48 + d)).foldl (fun acc c => 10 * acc + (c.toNat - 48)) a
        = L.foldl (fun acc d => 10 * acc + d) a := by
  induction L with
  | nil => intro a; rfl
  | cons d t ih =>
    intro a
    have hd : d < 10 := hL d (List.mem_cons_self d t)
    have ht : ∀ x ∈ t, x < 10 := fun x hx => hL x (List.mem_cons_of_mem d hx)
    simp only [List.map_cons, List.foldl_cons, toNat_digitChar hd, Nat.add_sub_cancel_left,
      ih ht]

lemma foldl_base10 (L : List Nat) :
    ∀ a : Nat, L.foldl (fun acc d => 10 * acc + d) a
      = a * 10 ^ L.length + Nat.ofDigits 10 L.reverse := by
  induction L with
  | nil => intro a; simp [Nat.ofDigits]
  | cons d t ih =>
    intro a
    simp only [List.foldl_cons, ih, List.reverse_cons, Nat.ofDigits_append, List.length_reverse,
      List.length_cons, Nat.ofDigits_singleton]
    ring

lemma digitsToNat_natDecimal (n : Nat) : digitsToNat (natDecimal n) = n := by
  by_cases h0 : n = 0
  · subst h0; decide
  · unfold digitsToNat natDecimal
    simp only [h0, if_false, ← List.map_reverse]
    rw [foldl_map_digitChar (Nat.digits 10 n).reverse
      (by intro d hd; exact Nat.digits_lt_base (by norm_num) (List.mem_reverse.mp hd))]
    rw [foldl_base10, List.reverse_reverse, Nat.ofDigits_digits]
    simp

lemma simpleAtoiU64_natDecimal (n : Nat) (h : n < 2 ^ 64) :
    simpleAtoiU64 (natDecimal n) = some n := by
  unfold simpleAtoiU64
  rw [trimAscii_of_digits (natDecimal n) (natDecimal_all_digits n)]
  obtain ⟨c, t, hct⟩ := List.exists_cons_of_ne_nil (natDecimal_ne_nil n)
  rw [hct]
  have hdigits : ∀ x ∈ c :: t, isDecDigit x = true := by
    rw [← hct]; exact natDecimal_all_digits n
  have hcplus : c ≠ '+' := digit_ne_plus (hdigits c (List.mem_cons_self c t))
  have hval : digitsToNat (c :: t) = n := by rw [← hct]; exact digitsToNat_natDecimal n
  simp only [hcplus, if_false, List.isEmpty_cons, Bool.not_false, Bool.true_and, hval]
  rw [List.all_eq_true.mpr hdigits]
  simp only [Bool.and_true, Bool.true_and, if_pos]
  have h64 : n < 18446744073709551616 := by simpa using h
  simp [h64]

/-! Facts about the token reader. -/

lemma findNewline_append_newline (l1 l2 : Bytes) (h : '\n' ∉ l1) :
    findNewline (l1 ++ '\n' :: l2) = some l1.length := by
  induction l1 with
  | nil => simp [findNewline]
  | cons c t ih =>
    have hc : c ≠ '\n' := fun hcn => h (hcn ▸ List.mem_cons_self c t)
    have ht : '\n' ∉ t := fun htm => h (List.mem_cons_of_mem c htm)
    simp [findNewline, hc, ih ht]

lemma findNewline_spec (c : Bytes) :
    ∀ it : Nat, findNewline c = some it →
      c.take it ++ '\n' :: c.drop (it + 1) = c ∧ '\n' ∉ c.take it := by
  induction c with
  | nil => intro it h; simp [findNewline] at h
  | cons a t ih =>
    intro it h
    by_cases ha : a = '\n'
    · subst ha
      simp [findNewline] at h
      subst h
      simp
    · simp only [findNewline, ha, if_false, Option.map_eq_some'] at h
      obtain ⟨j, hj, rfl⟩ := h
      obtain ⟨hsplit, hmem⟩ := ih j hj
      constructor
      · simpa [List.take_succ_cons, List.drop_succ_cons] using hsplit
      · simp only [List.take_succ_cons, List.mem_cons]
        rintro (hcn | hcn)
        · exact ha hcn.symm
        · exact hmem hcn

lemma getToken_encodeToken (payload rest : Bytes) (h : payload.length < 2 ^ 64) :
    getToken (encodeToken payload ++ rest) = (some payload, rest, none) := by
  have hd : encodeToken payload ++ rest
      = natDecimal payload.length ++ '\n' :: (payload ++ rest) := by
    simp [encodeToken, List.append_assoc]
  have hfn : findNewline (natDecimal payload.length ++ '\n' :: (payload ++ rest))
      = some (natDecimal payload.length).length :=
    findNewline_append_newline _ _ (newline_not_mem_natDecimal payload.length)
  have htake : (natDecimal payload.length ++ '\n' :: (payload ++ rest)).take
      (natDecimal payload.length).length = natDecimal payload.length :=
    List.take_left _ _
  have hdrop : (natDecimal payload.length ++ '\n' :: (payload ++ rest)).drop
      ((natDecimal payload.length).length + 1) = payload ++ rest := by
    have hsplit : natDecimal payload.length ++ '\n' :: (payload ++ rest)
        = (natDecimal payload.length ++ ['\n']) ++ (payload ++ rest) := by simp
    rw [hsplit]
    exact List.drop_left' (by simp)
  rw [hd]
  simp only [getToken, hfn, htake, hdrop, simpleAtoiU64_natDecimal payload.length h]
  rw [if_neg (by simp [List.length_append] : ¬ (payload ++ rest).length < payload.length)]
  rw [List.take_left, List.drop_left]

lemma getToken_success_spec (c t r : Bytes) (e : Option ParseErr)
    (h : getToken c = (some t, r, e)) :
    ∃ it len, findNewline c = some it ∧ simpleAtoiU64 (c.take it) = some len ∧
      t = (c.drop (it + 1)).take len ∧ r = (c.drop (it + 1)).drop len ∧
      len ≤ (c.drop (it + 1)).length ∧ e = none := by
  unfold getToken at h
  split at h
  · simp at h
  · rename_i it hit
    split at h
    · simp at h
    · rename_i len hlen
      split at h
      · simp at h
      · rename_i hok
        simp only [Prod.mk.injEq, Option.some.injEq] at h
        exact ⟨it, len, hit, hlen, h.1.symm, h.2.1.symm, by omega, h.2.2.symm⟩

lemma getToken_failure_spec (c r : Bytes) (e : Option ParseErr)
    (h : getToken c = (none, r, e)) :
    (r = c ∧ e = some ParseErr.noNewline ∧ findNewline c = none) ∨
    (r = c ∧ e = some ParseErr.noLength ∧
      ∃ it, findNewline c = some it ∧ simpleAtoiU64 (c.take it) = none) ∨
    (e = some ParseErr.insufficientContents ∧
      ∃ it len, findNewline c = some it ∧ simpleAtoiU64 (c.take it) = some len ∧
        r = c.drop (it + 1) ∧ r.length < len) := by
  unfold getToken at h
  split at h
  · rename_i hit
    simp only [Prod.mk.injEq] at h
    exact Or.inl ⟨h.2.1.symm, h.2.2.symm, hit⟩
  · rename_i it hit
    split at h
    · rename_i hlen
      simp only [Prod.mk.injEq] at h
      exact Or.inr (Or.inl ⟨h.2.1.symm, h.2.2.symm, it, hit, hlen⟩)
    · rename_i len hlen
      split at h
      · rename_i hins
        simp only [Prod.mk.injEq] at h
        exact Or.inr (Or.inr ⟨h.2.2.symm, it, len, hit, hlen, h.2.1.symm, h.2.1 ▸ hins⟩)
      · simp at h

lemma findNewline_le_length (c : Bytes) (it : Nat) (h : findNewline c = some it) :
    it + 1 ≤ c.length := by
  obtain ⟨hsplit, -⟩ := findNewline_spec c it h
  have hlen := congrArg List.length hsplit
  simp only [List.length_append, List.length_cons, List.length_take, List.length_drop] at hlen
  omega

lemma getToken_shrink (c t r : Bytes) (e : Option ParseErr)
    (h : getToken c = (some t, r, e)) : r.length < c.length := by
  obtain ⟨it, len, hit, -, -, hr, -, -⟩ := getToken_success_spec c t r e h
  have hle := findNewline_le_length c it hit
  subst hr
  simp only [List.length_drop]
  omega

lemma parseLoop_congr (f : Nat) :
    ∀ (g : Nat) (c : Bytes) (s : Store), c.length < f → c.length < g →
      parseLoop f c s = parseLoop g c s := by
  induction f with
  | zero => intro g c s hf; omega
  | succ f ih =>
    intro g c s hf hg
    match g, hg with
    | g + 1, hg =>
      cases hc : c.isEmpty with
      | true => simp [parseLoop, hc]
      | false =>
        match hk : getToken c with
        | (none, r, e) => simp [parseLoop, hc, hk]
        | (some key, r1, e1) =>
          match hv : getToken r1 with
          | (none, r, e) => simp [parseLoop, hc, hk, hv]
          | (some value, r2, e2) =>
            have h1 := getToken_shrink c key r1 e1 hk
            have h2 := getToken_shrink r1 value r2 e2 hv
            simp only [parseLoop, hc, hk, hv, Bool.false_eq_true, if_false]
            exact ih g r2 (s.emplace key value) (by omega) (by omega)

lemma parseContents_nil (s : Store) :
    KeyValueStoreBase.parseContents [] s = (true, s, none) := rfl

lemma encodePair_length_pos (p : Bytes × Bytes) : 0 < (encodePair p).length := by
  have h1 := natDecimal_ne_nil p.1.length
  simp only [encodePair, encodeToken, List.length_append, List.length_cons]
  cases hnd : natDecimal p.1.length with
  | nil => exact absurd hnd h1
  | cons a tl => simp [hnd]

lemma parseContents_cons_pair (p : Bytes × Bytes) (tail : Bytes) (s : Store)
    (hk : p.1.length < 2 ^ 64) (hv : p.2.length < 2 ^ 64) :
    KeyValueStoreBase.parseContents (encodePair p ++ tail) s
      = KeyValueStoreBase.parseContents tail (s.emplace p.1 p.2) := by
  have hassoc : encodePair p ++ tail = encodeToken p.1 ++ (encodeToken p.2 ++ tail) := by
    simp [encodePair, List.append_assoc]
  have hg1 : getToken (encodePair p ++ tail) = (some p.1, encodeToken p.2 ++ tail, none) := by
    rw [hassoc]; exact getToken_encodeToken p.1 _ hk
  have hg2 : getToken (encodeToken p.2 ++ tail) = (some p.2, tail, none) :=
    getToken_encodeToken p.2 tail hv
  have hne : (encodePair p ++ tail).isEmpty = false := by
    cases hx : encodePair p ++ tail with
    | nil =>
      exfalso
      have hpos := encodePair_length_pos p
      have hl := congrArg List.length hx
      simp only [List.length_append, List.length_nil] at hl
      omega
    | cons a tl => rfl
  show parseLoop ((encodePair p ++ tail).length + 1) (encodePair p ++ tail) s = _
  simp only [parseLoop, hne, hg1, hg2, Bool.false_eq_true, if_false]
  have hlt : tail.length < (encodePair p ++ tail).length := by
    have hpos := encodePair_length_pos p
    simp only [List.length_append]
    omega
  exact parseLoop_congr _ _ tail (s.emplace p.1 p.2) hlt (by omega)

lemma parseContents_encodePairs (ps : List (Bytes × Bytes)) :
    ∀ (bad : Bytes) (s : Store),
      (∀ p ∈ ps, p.1.length < 2 ^ 64 ∧ p.2.length < 2 ^ 64) →
      KeyValueStoreBase.parseContents (encodePairs ps ++ bad) s
        = KeyValueStoreBase.parseContents bad
            (ps.foldl (fun st p => st.emplace p.1 p.2) s) := by
  induction ps with
  | nil => intro bad s h; simp [encodePairs]
  | cons p ps ih =>
    intro bad s h
    have hp := h p (List.mem_cons_self p ps)
    have hps : ∀ q ∈ ps, q.1.length < 2 ^ 64 ∧ q.2.length < 2 ^ 64 :=
      fun q hq => h q (List.mem_cons_of_mem p hq)
    have hflat : encodePairs (p :: ps) ++ bad = encodePair p ++ (encodePairs ps ++ bad) := by
      simp [encodePairs, List.append_assoc]
    rw [hflat, parseContents_cons_pair p _ s hp.1 hp.2, ih bad _ hps]
    rfl

/-! Facts about the association-list store. -/

lemma getVal_nil (k : Bytes) : Store.getVal [] k = none := rfl

lemma getVal_cons (p : Bytes × Bytes) (st : Store) (k : Bytes) :
    Store.getVal (p :: st) k = if p.1 = k then some p.2 else st.getVal k := by
  by_cases hp : p.1 = k
  · simp [Store.getVal, List.find?_cons_of_pos, hp]
  · simp [Store.getVal, List.find?_cons_of_neg, hp]

lemma getVal_append (st1 st2 : Store) (k : Bytes) :
    Store.getVal (st1 ++ st2) k =
      match st1.getVal k with
      | some v => some v
      | none => st2.getVal k := by
  induction st1 with
  | nil => simp [getVal_nil]
  | cons p t ih =>
    by_cases hp : p.1 = k
    · simp [getVal_cons, hp]
    · simp only [List.cons_append, getVal_cons, hp, if_false, ih]

lemma any_eq_getVal_isSome (st : Store) (k : Bytes) :
    st.any (fun p => p.1 = k) = (st.getVal k).isSome := by
  induction st with
  | nil => rfl
  | cons p t ih =>
    by_cases hp : p.1 = k
    · simp [getVal_cons, hp]
    · simp [getVal_cons, hp, ih]

lemma getVal_emplace (st : Store) (a b k : Bytes) :
    (st.emplace a b).getVal k =
      match st.getVal k with
      | some v => some v
      | none => if a = k then some b else none := by
  unfold Store.emplace
  by_cases ha : (st.getVal a).isSome
  · rw [if_pos (by rw [any_eq_getVal_isSome]; exact ha)]
    cases hk : st.getVal k with
    | some v => rfl
    | none =>
      by_cases hak : a = k
      · subst hak
        rw [hk] at ha
        simp at ha
      · simp [hak]
  · rw [if_neg (by rw [any_eq_getVal_isSome]; exact ha)]
    rw [getVal_append]
    cases hk : st.getVal k with
    | some v => rfl
    | none =>
      by_cases hak : a = k
      · simp [getVal_cons, getVal_nil, hak]
      · simp [getVal_cons, getVal_nil, hak]

lemma getVal_foldl_emplace (ps : List (Bytes × Bytes)) :
    ∀ (st : Store) (k : Bytes),
      (ps.foldl (fun s p => s.emplace p.1 p.2) st).getVal k =
        match st.getVal k with
        | some v => some v
        | none => (ps.find? (fun p => p.1 = k)).map (fun p => p.2) := by
  induction ps with
  | nil =>
    intro st k
    simp only [List.foldl_nil]
    cases hk : st.getVal k <;> simp [hk]
  | cons p ps ih =>
    intro st k
    simp only [List.foldl_cons, ih]
    rw [getVal_emplace]
    cases hk : st.getVal k with
    | some v => rfl
    | none =>
      by_cases hpk : p.1 = k
      · simp [List.find?_cons_of_pos, hpk]
      · simp [List.find?_cons_of_neg, hpk]

lemma foldl_emplace_fresh (ps : List (Bytes × Bytes)) :
    ∀ st : Store, (ps.map Prod.fst).Nodup →
      (∀ p ∈ ps, st.getVal p.1 = none) →
      ps.foldl (fun s p => s.emplace p.1 p.2) st = st ++ ps := by
  induction ps with
  | nil => intro st _ _; simp
  | cons p ps ih =>
    intro st hnd hdisj
    have hphd : st.getVal p.1 = none := hdisj p (List.mem_cons_self p ps)
    have hem : st.emplace p.1 p.2 = st ++ [p] := by
      unfold Store.emplace
      rw [if_neg (by rw [any_eq_getVal_isSome, hphd]; simp)]
    simp only [List.foldl_cons, hem]
    have hnd' : (ps.map Prod.fst).Nodup := by
      simp only [List.map_cons, List.nodup_cons] at hnd
      exact hnd.2
    have hhd : p.1 ∉ ps.map Prod.fst := by
      simp only [List.map_cons, List.nodup_cons] at hnd
      exact hnd.1
    have hdisj' : ∀ q ∈ ps, (st ++ [p]).getVal q.1 = none := by
      intro q hq
      rw [getVal_append, hdisj q (List.mem_cons_of_mem p hq)]
      have hqp : p.1 ≠ q.1 := by
        intro hcontra
        exact hhd (hcontra ▸ List.mem_map_of_mem Prod.fst hq)
      simp [getVal_cons, getVal_nil, hqp]
    rw [ih (st ++ [p]) hnd' hdisj']
    simp

/-! Claim theorems. -/

/-- C8: parseContents on the buffer "1\nA1\nB2\nCD3\nEFG" with an empty target
succeeds and yields exactly the mapping A to B, CD to EFG; and parseContents on
the empty buffer succeeds and yields the empty mapping. -/
theorem C8_example_buffers :
    KeyValueStoreBase.parseContents
        ['1', '\n', 'A', '1', '\n', 'B', '2', '\n', 'C', 'D', '3', '\n', 'E', 'F', 'G'] []
      = (true, [(['A'], ['B']), (['C', 'D'], ['E', 'F', 'G'])], none) ∧
    KeyValueStoreBase.parseContents [] [] = (true, [], none) := by
  constructor <;> decide

/-- C9: iterate invokes the callback once per store entry in order and stops
early on Break: with an always-Continue callback every entry is visited exactly
once, and on a three-entry store a callback returning Break on its first
invocation visits exactly one entry. -/
theorem C9_iterate_early_exit (store : Store) :
    KeyValueStoreBase.iterate store (fun _ _ => Iterate.Continue) = store ∧
    (store.length = 3 →
      (KeyValueStoreBase.iterate store (fun _ _ => Iterate.Break)).length = 1) := by
  constructor
  · induction store with
    | nil => rfl
    | cons e rest ih => simp [KeyValueStoreBase.iterate, ih]
  · intro h3
    cases store with
    | nil => simp at h3
    | cons e rest => rfl

/-- Witness for C9 on a concrete three-entry store. -/
theorem C9_iterate_early_exit_witness :
    KeyValueStoreBase.iterate [(['a'], ['1']), (['b'], ['2']), (['c'], ['3'])]
        (fun _ _ => Iterate.Continue) = [(['a'], ['1']), (['b'], ['2']), (['c'], ['3'])] ∧
    (KeyValueStoreBase.iterate [(['a'], ['1']), (['b'], ['2']), (['c'], ['3'])]
        (fun _ _ => Iterate.Break)).length = 1 :=
  ⟨(C9_iterate_early_exit [(['a'], ['1']), (['b'], ['2']), (['c'], ['3'])]).1,
   (C9_iterate_early_exit [(['a'], ['1']), (['b'], ['2']), (['c'], ['3'])]).2 (by decide)⟩

/-- C6: with the flush timer disarmed, each addOrUpdate or remove call invokes
the flush action exactly once and does not arm the timer; with the timer
armed, neither mutation invokes any flush. -/
theorem C6_mutation_flush (s : KVState) (k v : Bytes) :
    (s.timerEnabled = false →
      (KeyValueStoreBase.addOrUpdate s k v).flushCount = s.flushCount + 1 ∧
      (KeyValueStoreBase.addOrUpdate s k v).timerEnabled = false ∧
      (KeyValueStoreBase.remove s k).flushCount = s.flushCount + 1 ∧
      (KeyValueStoreBase.remove s k).timerEnabled = false) ∧
    (s.timerEnabled = true →
      (KeyValueStoreBase.addOrUpdate s k v).flushCount = s.flushCount ∧
      (KeyValueStoreBase.remove s k).flushCount = s.flushCount) := by
  cases harm : s.armedInterval with
  | none =>
    simp [KeyValueStoreBase.addOrUpdate, KeyValueStoreBase.remove, KVState.timerEnabled, harm]
  | some i =>
    simp [KeyValueStoreBase.addOrUpdate, KeyValueStoreBase.remove, KVState.timerEnabled, harm]

/-- Witness for C6 on concrete disarmed and armed states. -/
theorem C6_mutation_flush_witness :
    ((KeyValueStoreBase.addOrUpdate ⟨[], none, 0⟩ ['k'] ['v']).flushCount
        = (KVState.mk [] none 0).flushCount + 1 ∧
      (KeyValueStoreBase.addOrUpdate ⟨[], none, 0⟩ ['k'] ['v']).timerEnabled = false ∧
      (KeyValueStoreBase.remove ⟨[], none, 0⟩ ['k']).flushCount
        = (KVState.mk [] none 0).flushCount + 1 ∧
      (KeyValueStoreBase.remove ⟨[], none, 0⟩ ['k']).timerEnabled = false) ∧
    ((KeyValueStoreBase.addOrUpdate ⟨[], some 5, 0⟩ ['k'] ['v']).flushCount
        = (KVState.mk [] (some 5) 0).flushCount ∧
      (KeyValueStoreBase.remove ⟨[], some 5, 0⟩ ['k']).flushCount
        = (KVState.mk [] (some 5) 0).flushCount) :=
  ⟨(C6_mutation_flush ⟨[], none, 0⟩ ['k'] ['v']).1 (by decide),
   (C6_mutation_flush ⟨[], some 5, 0⟩ ['k'] ['v']).2 (by decide)⟩

/-- C7: construction with positive interval leaves the timer armed with that
interval; construction with non-positive interval leaves it disarmed, and
mutations do not arm it; a timer fire, possible only while armed, invokes the
flush action once and re-arms the timer with the same interval, so the
coordinator stays armed across fires. -/
theorem C7_flush_coordinator (interval : Int) (s : KVState) (k v : Bytes) :
    (0 < interval →
      (KeyValueStoreBase.construct interval).armedInterval = some interval ∧
      (KeyValueStoreBase.construct interval).timerEnabled = true) ∧
    (interval ≤ 0 →
      (KeyValueStoreBase.construct interval).armedInterval = none ∧
      (KeyValueStoreBase.addOrUpdate (KeyValueStoreBase.construct interval) k v).timerEnabled
        = false ∧
      (KeyValueStoreBase.remove (KeyValueStoreBase.construct interval) k).timerEnabled
        = false) ∧
    (s.timerEnabled = true →
      (KeyValueStoreBase.onTimerFire interval s).flushCount = s.flushCount + 1 ∧
      (KeyValueStoreBase.onTimerFire interval s).armedInterval = some interval ∧
      (KeyValueStoreBase.onTimerFire interval s).timerEnabled = true) := by
  refine ⟨fun hpos => ?_, fun hnp => ?_, fun harm => ?_⟩
  · simp [KeyValueStoreBase.construct, KVState.timerEnabled, hpos]
  · have hcond : ¬ interval > 0 := by omega
    simp [KeyValueStoreBase.construct, KeyValueStoreBase.addOrUpdate,
      KeyValueStoreBase.remove, KVState.timerEnabled, hcond]
  · simp [KeyValueStoreBase.onTimerFire, KVState.timerEnabled]

/-- Witness for C7 at interval 5 and interval 0 and an armed state. -/
theorem C7_flush_coordinator_witness :
    ((KeyValueStoreBase.construct 5).armedInterval = some 5 ∧
      (KeyValueStoreBase.construct 5).timerEnabled = true) ∧
    ((KeyValueStoreBase.construct 0).armedInterval = none ∧
      (KeyValueStoreBase.addOrUpdate (KeyValueStoreBase.construct 0) ['k'] ['v']).timerEnabled
        = false ∧
      (KeyValueStoreBase.remove (KeyValueStoreBase.construct 0) ['k']).timerEnabled = false) ∧
    ((KeyValueStoreBase.onTimerFire 5 ⟨[], some 5, 7⟩).flushCount
        = (KVState.mk [] (some 5) 7).flushCount + 1 ∧
      (KeyValueStoreBase.onTimerFire 5 ⟨[], some 5, 7⟩).armedInterval = some 5 ∧
      (KeyValueStoreBase.onTimerFire 5 ⟨[], some 5, 7⟩).timerEnabled = true) :=
  ⟨(C7_flush_coordinator 5 ⟨[], some 5, 7⟩ ['k'] ['v']).1 (by decide),
   (C7_flush_coordinator 0 ⟨[], some 5, 7⟩ ['k'] ['v']).2.1 (by decide),
   (C7_flush_coordinator 5 ⟨[], some 5, 7⟩ ['k'] ['v']).2.2 (by decide)⟩

/-- C10: parseContents terminates on every buffer: every successful getToken
call strictly shrinks the remaining view by at least one byte (the newline is
always consumed), and a failing getToken on the key or on the value token ends
the loop immediately with failure. -/
theorem C10_termination (c : Bytes) (s : Store) :
    (∀ t r e, getToken c = (some t, r, e) → r.length + 1 ≤ c.length) ∧
    (c ≠ [] → ∀ r e, getToken c = (none, r, e) →
      KeyValueStoreBase.parseContents c s = (false, s, e)) ∧
    (∀ k r1 e1 r e, getToken c = (some k, r1, e1) → getToken r1 = (none, r, e) →
      KeyValueStoreBase.parseContents c s = (false, s, e)) := by
  refine ⟨fun t r e h => getToken_shrink c t r e h, fun hne r e h => ?_, ?_⟩
  · have hemp : c.isEmpty = false := by
      cases c with
      | nil => exact absurd rfl hne
      | cons a t => rfl
    show parseLoop (c.length + 1) c s = (false, s, e)
    simp [parseLoop, hemp, h]
  · intro k r1 e1 r e hk hv
    have hne : c ≠ [] := by
      intro hnil
      subst hnil
      have hcomp : getToken [] = (none, [], some ParseErr.noNewline) := rfl
      rw [hcomp] at hk
      simp at hk
    have hemp : c.isEmpty = false := by
      cases c with
      | nil => exact absurd rfl hne
      | cons a t => rfl
    show parseLoop (c.length + 1) c s = (false, s, e)
    simp [parseLoop, hemp, hk, hv]

/-- Witness for C10 on a buffer whose value token is truncated and on a buffer
with no newline. -/
theorem C10_termination_witness :
    (['1', '\n'] : Bytes).length + 1 ≤ (['1', '\n', 'A', '1', '\n'] : Bytes).length ∧
    KeyValueStoreBase.parseContents ['z'] [] = (false, [], some ParseErr.noNewline) ∧
    KeyValueStoreBase.parseContents ['1', '\n', 'A', '1', '\n'] []
      = (false, [], some ParseErr.insufficientContents) :=
  ⟨(C10_termination ['1', '\n', 'A', '1', '\n'] []).1 ['A'] ['1', '\n'] none (by decide),
   (C10_termination ['z'] []).2.1 (by decide) ['z'] (some ParseErr.noNewline) (by decide),
   (C10_termination ['1', '\n', 'A', '1', '\n'] []).2.2 ['A'] ['1', '\n'] none []
     (some ParseErr.insufficientContents) (by decide) (by decide)⟩

/-- C2: getToken's only side effect is advancing the view: on success the view
is advanced exactly past the decimal length prefix, the newline and the
returned payload; on failure either the view is unchanged (no-newline and
no-length errors) or exactly the length prefix and the newline are consumed
while the declared payload was never fully present, so the view is never
advanced past payload bytes of a token that was not returned. -/
theorem C2_frame (c : Bytes) :
    (∀ t r, getToken c = (some t, r, none) →
      ∃ pre, c = pre ++ '\n' :: (t ++ r) ∧ '\n' ∉ pre ∧
        simpleAtoiU64 pre = some t.length) ∧
    (∀ r e, getToken c = (none, r, some e) →
      (r = c ∧ (e = ParseErr.noNewline ∨ e = ParseErr.noLength)) ∨
      (e = ParseErr.insufficientContents ∧
        ∃ pre len, c = pre ++ '\n' :: r ∧ '\n' ∉ pre ∧
          simpleAtoiU64 pre = some len ∧ r.length < len)) := by
  constructor
  · intro t r h
    obtain ⟨it, len, hit, hatoi, ht, hr, hle, -⟩ := getToken_success_spec c t r none h
    obtain ⟨hsplit, hnl⟩ := findNewline_spec c it hit
    refine ⟨c.take it, ?_, hnl, ?_⟩
    · rw [ht, hr, List.take_append_drop]
      exact hsplit.symm
    · have htlen : t.length = len := by
        rw [ht, List.length_take]
        omega
      rw [htlen]
      exact hatoi
  · intro r e h
    rcases getToken_failure_spec c r (some e) h with
      ⟨hr, he, -⟩ | ⟨hr, he, -⟩ | ⟨he, it, len, hit, hatoi, hr, hlt⟩
    · exact Or.inl ⟨hr, Or.inl (by injection he)⟩
    · exact Or.inl ⟨hr, Or.inr (by injection he)⟩
    · obtain ⟨hsplit, hnl⟩ := findNewline_spec c it hit
      refine Or.inr ⟨by injection he, c.take it, len, ?_, hnl, hatoi, hlt⟩
      rw [hr]
      exact hsplit.symm

/-- Witness for C2 on a successful parse and on a no-newline failure. -/
theorem C2_frame_witness :
    (∃ pre, (['1', '\n', 'A'] : Bytes) = pre ++ '\n' :: (['A'] ++ ([] : Bytes)) ∧
      '\n' ∉ pre ∧ simpleAtoiU64 pre = some (['A'] : Bytes).length) ∧
    (((['z'] : Bytes) = ['z'] ∧ (ParseErr.noNewline = ParseErr.noNewline ∨
        ParseErr.noNewline = ParseErr.noLength)) ∨
      (ParseErr.noNewline = ParseErr.insufficientContents ∧
        ∃ pre len, (['z'] : Bytes) = pre ++ '\n' :: ['z'] ∧ '\n' ∉ pre ∧
          simpleAtoiU64 pre = some len ∧ (['z'] : Bytes).length < len)) :=
  ⟨(C2_frame ['1', '\n', 'A']).1 ['A'] [] (by decide),
   (C2_frame ['z']).2 ['z'] ParseErr.noNewline (by decide)⟩

/-- C5: getToken fails exactly under one of three structural conditions, each
with its specific message: no newline in the view; the prefix before the first
newline rejected by SimpleAtoi (empty, non-numeric or 64-bit-overflowing); or
fewer bytes remaining after the newline than the parsed length.  Otherwise it
succeeds and returns exactly the next length bytes after the newline. -/
theorem C5_error_taxonomy (c : Bytes) :
    (getToken c = (none, c, some ParseErr.noNewline) ↔ findNewline c = none) ∧
    ((∃ r, getToken c = (none, r, some ParseErr.noLength)) ↔
      (∃ it, findNewline c = some it ∧ simpleAtoiU64 (c.take it) = none)) ∧
    ((∃ r, getToken c = (none, r, some ParseErr.insufficientContents)) ↔
      (∃ it len, findNewline c = some it ∧ simpleAtoiU64 (c.take it) = some len ∧
        (c.drop (it + 1)).length < len)) ∧
    (∀ it len, findNewline c = some it → simpleAtoiU64 (c.take it) = some len →
      len ≤ (c.drop (it + 1)).length →
      getToken c = (some ((c.drop (it + 1)).take len), (c.drop (it + 1)).drop len, none)) ∧
    (ParseErr.noNewline.message = "Bad file: no newline" ∧
      ParseErr.noLength.message = "Bad file: no length" ∧
      ParseErr.insufficientContents.message = "Bad file: insufficient contents") := by
  refine ⟨⟨fun h => ?_, fun h => by simp [getToken, h]⟩,
    ⟨fun h => ?_, fun h => ?_⟩, ⟨fun h => ?_, fun h => ?_⟩,
    fun it len hit hatoi hle => by
      have hnot : ¬ List.length c - (it + 1) < len := by
        simp only [List.length_drop] at hle
        omega
      simp [getToken, hit, hatoi, hnot],
    rfl, rfl, rfl⟩
  · rcases getToken_failure_spec c c (some ParseErr.noNewline) h with
      ⟨-, -, hfn⟩ | ⟨-, he, -⟩ | ⟨he, -⟩
    · exact hfn
    · exact absurd (by injection he) (by decide)
    · exact absurd (by injection he) (by decide)
  · obtain ⟨r, hr⟩ := h
    rcases getToken_failure_spec c r (some ParseErr.noLength) hr with
      ⟨-, he, -⟩ | ⟨-, -, it, hit, hatoi⟩ | ⟨he, -⟩
    · exact absurd (by injection he) (by decide)
    · exact ⟨it, hit, hatoi⟩
    · exact absurd (by injection he) (by decide)
  · obtain ⟨it, hit, hatoi⟩ := h
    exact ⟨c, by simp [getToken, hit, hatoi]⟩
  · obtain ⟨r, hr⟩ := h
    rcases getToken_failure_spec c r (some ParseErr.insufficientContents) hr with
      ⟨-, he, -⟩ | ⟨-, he, -⟩ | ⟨-, it, len, hit, hatoi, hreq, hlt⟩
    · exact absurd (by injection he) (by decide)
    · exact absurd (by injection he) (by decide)
    · exact ⟨it, len, hit, hatoi, hreq ▸ hlt⟩
  · obtain ⟨it, len, hit, hatoi, hlt⟩ := h
    have hlt' : List.length c - (it + 1) < len := by
      simpa [List.length_drop] using hlt
    exact ⟨c.drop (it + 1), by simp [getToken, hit, hatoi, hlt']⟩

/-- Witness for C5 exercising each error condition and a success. -/
theorem C5_error_taxonomy_witness :
    getToken ['z'] = (none, ['z'], some ParseErr.noNewline) ∧
    (∃ r, getToken ['x', '\n'] = (none, r, some ParseErr.noLength)) ∧
    (∃ r, getToken ['2', '\n', 'A'] = (none, r, some ParseErr.insufficientContents)) ∧
    getToken ['1', '\n', 'A', 'B']
      = (some (((['1', '\n', 'A', 'B'] : Bytes).drop 2).take 1),
          ((['1', '\n', 'A', 'B'] : Bytes).drop 2).drop 1, none) :=
  ⟨(C5_error_taxonomy ['z']).1.mpr (by decide),
   (C5_error_taxonomy ['x', '\n']).2.1.mpr ⟨1, by decide, by decide⟩,
   (C5_error_taxonomy ['2', '\n', 'A']).2.2.1.mpr ⟨1, 2, by decide, by decide, by decide⟩,
   (C5_error_taxonomy ['1', '\n', 'A', 'B']).2.2.2.1 1 1 (by decide) (by decide) (by decide)⟩

/-- C1 counterexample: the buffer "1\nA1\nB1\nA1\nC" decodes the pairs (A,B)
then (A,C), parses successfully, but the mapping afterwards holds B, the value
from the earlier pair, not C from the later pair, because parseContents inserts
with emplace, which never overwrites an existing key. -/
theorem C1_counterexample :
    (KeyValueStoreBase.parseContents
        ['1', '\n', 'A', '1', '\n', 'B', '1', '\n', 'A', '1', '\n', 'C'] []).1 = true ∧
    Store.getVal (KeyValueStoreBase.parseContents
        ['1', '\n', 'A', '1', '\n', 'B', '1', '\n', 'A', '1', '\n', 'C'] []).2.1 ['A']
      = some ['B'] ∧
    ¬ Store.getVal (KeyValueStoreBase.parseContents
        ['1', '\n', 'A', '1', '\n', 'B', '1', '\n', 'A', '1', '\n', 'C'] []).2.1 ['A']
      = some ['C'] := by
  exact ⟨by decide, by decide, by decide⟩

/-- C1 (amended): parseContents inserts each decoded pair into the target
mapping only when the key is not already present (emplace semantics), so for a
buffer with two pairs sharing a key the mapping afterwards holds the value
from the EARLIER pair in the buffer: lookup returns the value of the first
pair carrying the key. -/
theorem C1_emplace_first_wins (ps : List (Bytes × Bytes))
    (hlen : ∀ p ∈ ps, p.1.length < 2 ^ 64 ∧ p.2.length < 2 ^ 64) :
    (KeyValueStoreBase.parseContents (encodePairs ps) []).1 = true ∧
    ∀ k, Store.getVal (KeyValueStoreBase.parseContents (encodePairs ps) []).2.1 k
      = (ps.find? (fun p => p.1 = k)).map (fun p => p.2) := by
  have h := parseContents_encodePairs ps [] [] hlen
  rw [List.append_nil] at h
  rw [h]
  refine ⟨rfl, fun k => ?_⟩
  show Store.getVal (ps.foldl (fun st p => st.emplace p.1 p.2) []) k = _
  rw [getVal_foldl_emplace]
  rfl

/-- Witness for C1 (amended) on the duplicate-key pair list (A,B),(A,C). -/
theorem C1_emplace_first_wins_witness :
    (KeyValueStoreBase.parseContents (encodePairs [(['A'], ['B']), (['A'], ['C'])]) []).1
      = true ∧
    Store.getVal (KeyValueStoreBase.parseContents
        (encodePairs [(['A'], ['B']), (['A'], ['C'])]) []).2.1 ['A'] = some ['B'] :=
  ⟨(C1_emplace_first_wins [(['A'], ['B']), (['A'], ['C'])] (by decide)).1,
   ((C1_emplace_first_wins [(['A'], ['B']), (['A'], ['C'])] (by decide)).2 ['A']).trans
     (by decide)⟩

/-- C3 counterexample: the buffer with the valid pairs (A,B),(A,C) followed by
the truncated token "1\n" fails as the claim says, but the target afterwards
holds only (A,B): it does not contain the second valid pair (A,C), because
emplace drops pairs whose key is already present. -/
theorem C3_counterexample :
    KeyValueStoreBase.parseContents
        ['1', '\n', 'A', '1', '\n', 'B', '1', '\n', 'A', '1', '\n', 'C', '1', '\n'] []
      = (false, [(['A'], ['B'])], some ParseErr.insufficientContents) ∧
    (['A'], ['C']) ∉ (KeyValueStoreBase.parseContents
        ['1', '\n', 'A', '1', '\n', 'B', '1', '\n', 'A', '1', '\n', 'C', '1', '\n'] []).2.1 := by
  exact ⟨by decide, by decide⟩

/-- A tail whose first key token or first value token fails to decode. -/
def truncatedTail (bad : Bytes) : Bool :=
  !bad.isEmpty &&
    (((getToken bad).1).isNone || ((getToken ((getToken bad).2.1)).1).isNone)

/-- C3 (amended): for a buffer of N validly encoded pairs with pairwise
distinct keys followed by a truncated or malformed token, parseContents into
an empty target returns failure and the target afterwards holds exactly those
N pairs (with a duplicated key only the earliest pair of that key is kept); in
particular "1\nA1\n" fails with the insufficient-contents error message and
inserts no pair. -/
theorem C3_partial_failure (ps : List (Bytes × Bytes)) (bad : Bytes)
    (hnd : (ps.map Prod.fst).Nodup)
    (hlen : ∀ p ∈ ps, p.1.length < 2 ^ 64 ∧ p.2.length < 2 ^ 64)
    (hbad : truncatedTail bad = true) :
    (KeyValueStoreBase.parseContents (encodePairs ps ++ bad) []).1 = false ∧
    (KeyValueStoreBase.parseContents (encodePairs ps ++ bad) []).2.1 = ps ∧
    KeyValueStoreBase.parseContents ['1', '\n', 'A', '1', '\n'] []
      = (false, [], some ParseErr.insufficientContents) ∧
    ParseErr.insufficientContents.message = "Bad file: insufficient contents" := by
  have hmain := parseContents_encodePairs ps bad [] hlen
  rw [foldl_emplace_fresh ps [] hnd (fun p _ => rfl), List.nil_append] at hmain
  rw [hmain]
  simp only [truncatedTail, Bool.and_eq_true, Bool.not_eq_true', Bool.or_eq_true,
    Option.isNone_iff_eq_none] at hbad
  obtain ⟨hne, hfail⟩ := hbad
  have hstep : (KeyValueStoreBase.parseContents bad ps).1 = false ∧
      (KeyValueStoreBase.parseContents bad ps).2.1 = ps := by
    show (parseLoop (bad.length + 1) bad ps).1 = false ∧
      (parseLoop (bad.length + 1) bad ps).2.1 = ps
    match hk : getToken bad with
    | (none, r, e) => simp [parseLoop, hne, hk]
    | (some k, r1, e1) =>
      match hv : getToken r1 with
      | (none, r, e) => simp [parseLoop, hne, hk, hv]
      | (some v, r2, e2) =>
        exfalso
        rcases hfail with hf | hf
        · rw [hk] at hf
          simp at hf
        · rw [hk] at hf
          simp only at hf
          rw [hv] at hf
          simp at hf
  exact ⟨hstep.1, hstep.2, by decide, rfl⟩

/-- Witness for C3 (amended) with one valid pair and a truncated tail. -/
theorem C3_partial_failure_witness :
    (KeyValueStoreBase.parseContents (encodePairs [(['A'], ['B'])] ++ ['1', '\n']) []).1
      = false ∧
    (KeyValueStoreBase.parseContents (encodePairs [(['A'], ['B'])] ++ ['1', '\n']) []).2.1
      = [(['A'], ['B'])] :=
  ⟨(C3_partial_failure [(['A'], ['B'])] ['1', '\n'] (by decide) (by decide) (by decide)).1,
   (C3_partial_failure [(['A'], ['B'])] ['1', '\n'] (by decide) (by decide) (by decide)).2.1⟩

/-- C4: round-trip — serializing any finite mapping (a pair list with pairwise
distinct keys, concatenated in any order) in the wire format and feeding the
result to parseContents on an empty target succeeds and reproduces exactly
that mapping. -/
theorem C4_roundtrip (ps : List (Bytes × Bytes))
    (hnd : (ps.map Prod.fst).Nodup)
    (hlen : ∀ p ∈ ps, p.1.length < 2 ^ 64 ∧ p.2.length < 2 ^ 64) :
    KeyValueStoreBase.parseContents (encodePairs ps) [] = (true, ps, none) := by
  have h := parseContents_encodePairs ps [] [] hlen
  rw [List.append_nil] at h
  rw [h, foldl_emplace_fresh ps [] hnd (fun p _ => rfl), List.nil_append]
  exact parseContents_nil ps

/-- Witness for C4 on a concrete two-pair mapping, in both orders. -/
theorem C4_roundtrip_witness :
    KeyValueStoreBase.parseContents (encodePairs [(['A'], ['B']), (['C', 'D'], ['E', 'F', 'G'])])
        [] = (true, [(['A'], ['B']), (['C', 'D'], ['E', 'F', 'G'])], none) ∧
    KeyValueStoreBase.parseContents (encodePairs [(['C', 'D'], ['E', 'F', 'G']), (['A'], ['B'])])
        [] = (true, [(['C', 'D'], ['E', 'F', 'G']), (['A'], ['B'])], none) :=
  ⟨C4_roundtrip [(['A'], ['B']), (['C', 'D'], ['E', 'F', 'G'])] (by decide) (by decide),
   C4_roundtrip [(['C', 'D'], ['E', 'F', 'G']), (['A'], ['B'])] (by decide) (by decide)⟩
